import Mathlib

/-!
# Verification of the lecture_bot concurrent processing core

Shallow embedding of the two components specified for this repository:

* `CacheManager` (src/bot/core/cache_manager.py) — a content-addressed,
  TTL- and size-bounded on-disk result cache.  File-system state is modelled
  explicitly: the cache directory is a finite association list from file
  names to files, content files live in a separate association list keyed by
  full path (the code joins `cache_dir` with generated names for cache
  entries and receives arbitrary caller paths for content; the two name
  spaces are modelled disjointly).  A file carries its byte contents, its
  modification time (seconds, the authoritative TTL/eviction clock) and a
  readability flag (an unreadable file models an I/O error raised by `open`
  for reading).  A `diskFull` flag on the file system models an I/O error
  raised when writing (e.g. ENOSPC).  `pickle` is an external collaborator
  and is modelled by an injective encoding with its decoder; `hashlib.md5`
  is an external collaborator and is modelled by a deterministic digest
  function of the byte stream.

* `ProcessingQueue` (src/bot/core/processing_queue.py) — a bounded
  task-admission queue with a worker pool, modelled as a labelled transition
  system over queue states, with traces of events (submission, rejection,
  dequeue by a worker, completion, cancellation, observation of a terminal
  outcome by the awaiting caller).
-/

/-! ## File-system model -/

/-- A file: byte contents, modification time (seconds), and whether a read
of it succeeds (`readable = false` models an I/O error on `open`/`read`;
`os.stat` still succeeds for a present file). -/
structure FsFile where
  data : List Nat
  mtime : Nat
  readable : Bool
deriving DecidableEq, Repr

/-- The file-system state seen by `CacheManager`: the contents of the cache
directory (keyed by file name), the content files supplied by callers
(keyed by full path, outside the cache directory), and a flag modelling
write I/O failure (e.g. a full disk). -/
structure Fs where
  ext : List (String × FsFile)
  cdir : List (String × FsFile)
  diskFull : Bool
deriving DecidableEq, Repr

/-- Look a file up by key in an association list (a directory). -/
def lookupFile (l : List (String × FsFile)) (k : String) : Option FsFile :=
  match l.find? (fun p => p.1 == k) with
  | some p => some p.2
  | none => none

/-- Writing a file: `open(path, 'wb')` creates or truncates, so any previous
entry at the key is replaced. -/
def writeFile (l : List (String × FsFile)) (k : String) (f : FsFile) :
    List (String × FsFile) :=
  l.filter (fun p => !(p.1 == k)) ++ [(k, f)]

/-- Model of `os.remove`: drop the entry at the key. -/
def removeFile (l : List (String × FsFile)) (k : String) : List (String × FsFile) :=
  l.filter (fun p => !(p.1 == k))

/-- Model of Python's `str.endswith('.cache')` on a file name. -/
def ends_with_cache (s : String) : Bool :=
  ".cache".toList.isSuffixOf s.toList

/-! ## External collaborators: pickle and md5 -/

/-- Model of `pickle.dump`: an opaque injective serialisation of a result
value into bytes. -/
def pickleDump (v : Nat) : List Nat := [v]

/-- Model of `pickle.load`: decoder of `pickleDump`; returns `none` on bytes
it does not understand (a raised unpickling error). -/
def pickleLoad : List Nat → Option Nat
  | [v] => some v
  | _ => none

/-- Model of `hashlib.md5(...).hexdigest()` over a fully streamed byte
sequence: a deterministic digest function of the bytes. -/
def md5Hex (bs : List Nat) : String := toString bs

/-- Digest of a string: the code hashes `f"{path}_{size}_{mtime}".encode()`. -/
def md5HexOfString (s : String) : String := md5Hex (s.toList.map Char.toNat)

/-! ## CacheManager -/

/-- The mutable fields of `CacheManager` (src/bot/core/cache_manager.py):
configuration and the hit/miss/write statistics counters. -/
structure CacheManager where
  cache_dir : String
  ttl_hours : Nat
  max_size_mb : Nat
  hits : Nat
  misses : Nat
  writes : Nat
deriving DecidableEq, Repr

/-- The TTL `self.ttl = timedelta(hours=ttl_hours)`, in seconds. -/
def CacheManager.ttl (c : CacheManager) : Nat := c.ttl_hours * 3600

/-- Model of `CacheManager._get_file_hash`: streams the file through md5; if the read
fails, falls back to a digest of `f"{file_path}_{st_size}_{st_mtime}"`
(`os.stat` on the present file). -/
def get_file_hash (file_path : String) (f : FsFile) : String :=
  if f.readable then md5Hex f.data
  else md5HexOfString (file_path ++ "_" ++ toString f.data.length ++ "_" ++ toString f.mtime)

/-- Model of `CacheManager._get_cache_path`: the cache entry's file name
`f"{file_hash}_{language}.cache"` inside the cache directory. -/
def get_cache_path (file_hash language : String) : String :=
  file_hash ++ "_" ++ language ++ ".cache"

/-- Model of `CacheManager.get`: returns the cached value (or `none` for a miss)
together with the updated manager (counters) and file system.  Misses: the
content file no longer exists, the entry is absent, the entry is stale
(deleted as a side effect), or any internal failure (unreadable entry file,
unpicklable bytes) caught by the surrounding `except` block. -/
def CacheManager.get (c : CacheManager) (fs : Fs) (now : Nat)
    (file_path language : String) : Option Nat × CacheManager × Fs :=
  match lookupFile fs.ext file_path with
  | none => (none, { c with misses := c.misses + 1 }, fs)
  | some f =>
    let cache_path := get_cache_path (get_file_hash file_path f) language
    match lookupFile fs.cdir cache_path with
    | none => (none, { c with misses := c.misses + 1 }, fs)
    | some entry =>
      if now - entry.mtime > c.ttl then
        (none, { c with misses := c.misses + 1 },
         { fs with cdir := removeFile fs.cdir cache_path })
      else if entry.readable then
        match pickleLoad entry.data with
        | some v => (some v, { c with hits := c.hits + 1 }, fs)
        | none => (none, { c with misses := c.misses + 1 }, fs)
      else
        (none, { c with misses := c.misses + 1 }, fs)

/-- Model of `CacheManager._get_cache_size_mb`, kept in bytes: total size of the
`.cache` files in the cache directory.  (The code divides by 1024*1024 and
compares with `max_size_mb`; here the comparison is done in bytes.) -/
def get_cache_size_bytes (fs : Fs) : Nat :=
  (fs.cdir.filter (fun p => ends_with_cache p.1)).foldr
    (fun p acc => p.2.data.length + acc) 0

/-- Model of `CacheManager._cleanup_oldest_files`: list the `.cache` files with their
mtimes, stable-sort oldest first, remove the first `count`. -/
def cleanup_oldest_files (fs : Fs) (count : Nat) : Fs :=
  let cache_files := fs.cdir.filter (fun p => ends_with_cache p.1)
  let sorted := cache_files.mergeSort (fun a b => decide (a.2.mtime ≤ b.2.mtime))
  let victims := (sorted.take count).map Prod.fst
  { fs with cdir := fs.cdir.filter (fun p => !(victims.contains p.1)) }

/-- Model of `CacheManager.set`: checks that the content file exists, computes the
entry name, runs the batch-of-ten eviction pass if the store is at or above
its size budget, then writes the entry (mtime = now); returns a success
flag, `false` (never an exception) when the content file is gone or the
write raises. -/
def CacheManager.set (c : CacheManager) (fs : Fs) (now : Nat)
    (file_path language : String) (result : Nat) : Bool × CacheManager × Fs :=
  match lookupFile fs.ext file_path with
  | none => (false, c, fs)
  | some f =>
    let cache_path := get_cache_path (get_file_hash file_path f) language
    let fs1 := if c.max_size_mb * 1048576 ≤ get_cache_size_bytes fs then
        cleanup_oldest_files fs 10 else fs
    if fs1.diskFull then (false, c, fs1)
    else (true, { c with writes := c.writes + 1 },
          { fs1 with cdir := writeFile fs1.cdir cache_path ⟨pickleDump result, now, true⟩ })

/-- Model of `CacheManager.clear_old_cache`: delete every `.cache` file strictly
older than `now - ttl`; return the number deleted. -/
def CacheManager.clear_old_cache (c : CacheManager) (fs : Fs) (now : Nat) :
    Nat × Fs :=
  let expired := fun (p : String × FsFile) =>
    ends_with_cache p.1 && decide (p.2.mtime < now - c.ttl)
  ((fs.cdir.filter expired).length,
   { fs with cdir := fs.cdir.filter (fun p => !(expired p)) })

/-- Model of `CacheManager.clear_all_cache`: delete every `.cache` file, reset the
statistics counters, return the number deleted. -/
def CacheManager.clear_all_cache (c : CacheManager) (fs : Fs) :
    Nat × CacheManager × Fs :=
  ((fs.cdir.filter (fun p => ends_with_cache p.1)).length,
   { c with hits := 0, misses := 0, writes := 0 },
   { fs with cdir := fs.cdir.filter (fun p => !(ends_with_cache p.1)) })

/-! ## Directory lemmas -/

theorem find?_key_filter (l : List (String × FsFile)) (k : String)
    (q : String × FsFile → Bool) (hq : ∀ p, p.1 = k → q p = true) :
    (l.filter q).find? (fun p => p.1 == k) = l.find? (fun p => p.1 == k) := by
  induction l with
  | nil => rfl
  | cons a l ih =>
    by_cases hqa : q a = true
    · rw [List.filter_cons_of_pos hqa]
      by_cases hak : (a.1 == k) = true
      · rw [List.find?_cons_of_pos (l.filter q) hak, List.find?_cons_of_pos l hak]
      · rw [List.find?_cons_of_neg (l.filter q) (by simp [hak]),
            List.find?_cons_of_neg l (by simp [hak]), ih]
    · have hak : ¬ ((a.1 == k) = true) := by
        intro hcon
        exact hqa (hq a (by simpa using hcon))
      rw [List.filter_cons_of_neg hqa, List.find?_cons_of_neg l hak, ih]

theorem lookupFile_filter_of_key (l : List (String × FsFile)) (k : String)
    (q : String × FsFile → Bool) (hq : ∀ p, p.1 = k → q p = true) :
    lookupFile (l.filter q) k = lookupFile l k := by
  unfold lookupFile
  rw [find?_key_filter l k q hq]

theorem lookupFile_removeFile_self (l : List (String × FsFile)) (k : String) :
    lookupFile (removeFile l k) k = none := by
  unfold lookupFile removeFile
  have : (l.filter (fun p => !(p.1 == k))).find? (fun p => p.1 == k) = none := by
    rw [List.find?_eq_none]
    intro p hp
    have := List.of_mem_filter hp
    simpa using this
  rw [this]

theorem lookupFile_writeFile_self (l : List (String × FsFile)) (k : String) (f : FsFile) :
    lookupFile (writeFile l k f) k = some f := by
  unfold lookupFile writeFile
  rw [List.find?_append]
  have h1 : (l.filter (fun p => !(p.1 == k))).find? (fun p => p.1 == k) = none := by
    rw [List.find?_eq_none]
    intro p hp
    have := List.of_mem_filter hp
    simpa using this
  rw [h1]
  simp [List.find?]

theorem cleanup_oldest_files_ext (fs : Fs) (n : Nat) :
    (cleanup_oldest_files fs n).ext = fs.ext := rfl

theorem cleanup_oldest_files_diskFull (fs : Fs) (n : Nat) :
    (cleanup_oldest_files fs n).diskFull = fs.diskFull := rfl

/-! ## Claims about CacheManager -/

/-- C4: for every cache entry whose age at lookup time exceeds the
configured TTL, `get` returns a miss (incrementing the miss counter) and
deletes the stale entry file as a side effect of the read. -/
theorem get_ttl_expired_misses_and_deletes
    (c : CacheManager) (fs : Fs) (now : Nat) (file_path language : String)
    (f entry : FsFile)
    (hf : lookupFile fs.ext file_path = some f)
    (he : lookupFile fs.cdir (get_cache_path (get_file_hash file_path f) language)
            = some entry)
    (hstale : now - entry.mtime > c.ttl) :
    (c.get fs now file_path language).1 = none ∧
    (c.get fs now file_path language).2.1.misses = c.misses + 1 ∧
    lookupFile (c.get fs now file_path language).2.2.cdir
      (get_cache_path (get_file_hash file_path f) language) = none := by
  simp only [CacheManager.get, hf, he, if_pos hstale]
  exact ⟨trivial, trivial, lookupFile_removeFile_self _ _⟩

/-- C4 witness: an entry written at time 0 with TTL = 1 hour, queried two
hours later, misses and is removed. -/
theorem get_ttl_expired_misses_and_deletes_witness :
    (CacheManager.get ⟨"cache", 1, 500, 0, 0, 0⟩
      ⟨[("lec.wav", ⟨[7], 0, true⟩)], [("[7]_ru.cache", ⟨[5], 0, true⟩)], false⟩
      7200 "lec.wav" "ru").1 = none ∧
    (CacheManager.get ⟨"cache", 1, 500, 0, 0, 0⟩
      ⟨[("lec.wav", ⟨[7], 0, true⟩)], [("[7]_ru.cache", ⟨[5], 0, true⟩)], false⟩
      7200 "lec.wav" "ru").2.1.misses = 0 + 1 ∧
    lookupFile (CacheManager.get ⟨"cache", 1, 500, 0, 0, 0⟩
      ⟨[("lec.wav", ⟨[7], 0, true⟩)], [("[7]_ru.cache", ⟨[5], 0, true⟩)], false⟩
      7200 "lec.wav" "ru").2.2.cdir
      (get_cache_path (get_file_hash "lec.wav" ⟨[7], 0, true⟩) "ru") = none :=
  get_ttl_expired_misses_and_deletes _ _ 7200 "lec.wav" "ru" ⟨[7], 0, true⟩ ⟨[5], 0, true⟩
    (by decide) (by decide) (by decide)

/-- C5: no public cache operation propagates an exception.  An internal
read failure in `get` (unreadable entry file, or bytes the unpickler
rejects) degrades to a miss with the miss counter bumped and the store
untouched; a write I/O failure makes `set` return `false` with the counters
untouched, instead of raising. -/
theorem cache_failure_degrades
    (c : CacheManager) (fs : Fs) (now : Nat) (file_path language : String) (v : Nat) :
    (∀ f entry, lookupFile fs.ext file_path = some f →
      lookupFile fs.cdir (get_cache_path (get_file_hash file_path f) language)
          = some entry →
      ¬(now - entry.mtime > c.ttl) → entry.readable = false →
      c.get fs now file_path language
        = (none, { c with misses := c.misses + 1 }, fs)) ∧
    (∀ f entry, lookupFile fs.ext file_path = some f →
      lookupFile fs.cdir (get_cache_path (get_file_hash file_path f) language)
          = some entry →
      ¬(now - entry.mtime > c.ttl) → pickleLoad entry.data = none →
      c.get fs now file_path language
        = (none, { c with misses := c.misses + 1 }, fs)) ∧
    (fs.diskFull = true →
      (c.set fs now file_path language v).1 = false ∧
      (c.set fs now file_path language v).2.1 = c) := by
  refine ⟨?_, ?_, ?_⟩
  · intro f entry hf he httl hr
    simp [CacheManager.get, hf, he, httl, hr]
  · intro f entry hf he httl hp
    by_cases hr : entry.readable = true
    · simp [CacheManager.get, hf, he, httl, hr, hp]
    · rw [Bool.not_eq_true] at hr
      simp [CacheManager.get, hf, he, httl, hr]
  · intro hd
    cases hl : lookupFile fs.ext file_path with
    | none => simp [CacheManager.set, hl]
    | some f =>
      by_cases hsz : c.max_size_mb * 1048576 ≤ get_cache_size_bytes fs
      · simp [CacheManager.set, hl, hsz, cleanup_oldest_files_diskFull, hd]
      · simp [CacheManager.set, hl, hsz, hd]

/-- C5 witness: a store with an unreadable entry and a full disk. -/
theorem cache_failure_degrades_witness :
    (∀ f entry,
      lookupFile (Fs.mk [("a.wav", ⟨[1], 0, true⟩)]
          [("[1]_ru.cache", ⟨[5], 0, false⟩)] true).ext "a.wav" = some f →
      lookupFile (Fs.mk [("a.wav", ⟨[1], 0, true⟩)]
          [("[1]_ru.cache", ⟨[5], 0, false⟩)] true).cdir
          (get_cache_path (get_file_hash "a.wav" f) "ru") = some entry →
      ¬((0 : Nat) - entry.mtime > CacheManager.ttl ⟨"cache", 24, 500, 0, 0, 0⟩) →
      entry.readable = false →
      CacheManager.get ⟨"cache", 24, 500, 0, 0, 0⟩
          (Fs.mk [("a.wav", ⟨[1], 0, true⟩)] [("[1]_ru.cache", ⟨[5], 0, false⟩)] true)
          0 "a.wav" "ru"
        = (none, ⟨"cache", 24, 500, 0, 0 + 1, 0⟩,
           Fs.mk [("a.wav", ⟨[1], 0, true⟩)] [("[1]_ru.cache", ⟨[5], 0, false⟩)] true)) ∧
    (∀ f entry,
      lookupFile (Fs.mk [("a.wav", ⟨[1], 0, true⟩)]
          [("[1]_ru.cache", ⟨[5], 0, false⟩)] true).ext "a.wav" = some f →
      lookupFile (Fs.mk [("a.wav", ⟨[1], 0, true⟩)]
          [("[1]_ru.cache", ⟨[5], 0, false⟩)] true).cdir
          (get_cache_path (get_file_hash "a.wav" f) "ru") = some entry →
      ¬((0 : Nat) - entry.mtime > CacheManager.ttl ⟨"cache", 24, 500, 0, 0, 0⟩) →
      pickleLoad entry.data = none →
      CacheManager.get ⟨"cache", 24, 500, 0, 0, 0⟩
          (Fs.mk [("a.wav", ⟨[1], 0, true⟩)] [("[1]_ru.cache", ⟨[5], 0, false⟩)] true)
          0 "a.wav" "ru"
        = (none, ⟨"cache", 24, 500, 0, 0 + 1, 0⟩,
           Fs.mk [("a.wav", ⟨[1], 0, true⟩)] [("[1]_ru.cache", ⟨[5], 0, false⟩)] true)) ∧
    ((Fs.mk [("a.wav", ⟨[1], 0, true⟩)] [("[1]_ru.cache", ⟨[5], 0, false⟩)]
        true).diskFull = true →
      (CacheManager.set ⟨"cache", 24, 500, 0, 0, 0⟩
          (Fs.mk [("a.wav", ⟨[1], 0, true⟩)] [("[1]_ru.cache", ⟨[5], 0, false⟩)] true)
          0 "a.wav" "ru" 9).1 = false ∧
      (CacheManager.set ⟨"cache", 24, 500, 0, 0, 0⟩
          (Fs.mk [("a.wav", ⟨[1], 0, true⟩)] [("[1]_ru.cache", ⟨[5], 0, false⟩)] true)
          0 "a.wav" "ru" 9).2.1 = ⟨"cache", 24, 500, 0, 0, 0⟩) :=
  cache_failure_degrades ⟨"cache", 24, 500, 0, 0, 0⟩
    (Fs.mk [("a.wav", ⟨[1], 0, true⟩)] [("[1]_ru.cache", ⟨[5], 0, false⟩)] true)
    0 "a.wav" "ru" 9

/-- C6: for a readable content file, `set(c, d, v)` followed immediately by
`get(c, d)` — on the file system `set` produced, with the content file
unchanged and no more than the TTL elapsed — succeeds and returns `v`. -/
theorem cache_round_trip
    (c : CacheManager) (fs : Fs) (now now2 : Nat) (file_path language : String)
    (v : Nat) (f : FsFile)
    (hf : lookupFile fs.ext file_path = some f)
    (hdisk : fs.diskFull = false)
    (httl : now2 - now ≤ c.ttl) :
    (c.set fs now file_path language v).1 = true ∧
    ((c.set fs now file_path language v).2.1.get
        (c.set fs now file_path language v).2.2 now2 file_path language).1
      = some v := by
  have hnm : ¬(c.ttl_hours * 3600 < now2 - now) := by
    have h2 := httl
    unfold CacheManager.ttl at h2
    omega
  by_cases hsz : c.max_size_mb * 1048576 ≤ get_cache_size_bytes fs
  · constructor
    · simp [CacheManager.set, hf, hsz, cleanup_oldest_files_diskFull, hdisk]
    · simp [CacheManager.set, hf, hsz, cleanup_oldest_files_diskFull, hdisk,
            CacheManager.get, CacheManager.ttl, cleanup_oldest_files_ext,
            lookupFile_writeFile_self, hnm, pickleDump, pickleLoad]
  · constructor
    · simp [CacheManager.set, hf, hsz, hdisk]
    · simp [CacheManager.set, hf, hsz, hdisk, CacheManager.get, CacheManager.ttl,
            lookupFile_writeFile_self, hnm, pickleDump, pickleLoad]

/-- C6 witness: a concrete set-then-get round trip returning the stored
value. -/
theorem cache_round_trip_witness :
    (CacheManager.set ⟨"cache", 24, 500, 0, 0, 0⟩
        (Fs.mk [("a.wav", ⟨[3], 5, true⟩)] [] false) 10 "a.wav" "ru" 42).1 = true ∧
    ((CacheManager.set ⟨"cache", 24, 500, 0, 0, 0⟩
        (Fs.mk [("a.wav", ⟨[3], 5, true⟩)] [] false) 10 "a.wav" "ru" 42).2.1.get
      (CacheManager.set ⟨"cache", 24, 500, 0, 0, 0⟩
        (Fs.mk [("a.wav", ⟨[3], 5, true⟩)] [] false) 10 "a.wav" "ru" 42).2.2
      20 "a.wav" "ru").1 = some 42 :=
  cache_round_trip ⟨"cache", 24, 500, 0, 0, 0⟩
    (Fs.mk [("a.wav", ⟨[3], 5, true⟩)] [] false) 10 20 "a.wav" "ru" 42
    ⟨[3], 5, true⟩ (by decide) (by decide) (by decide)

/-- A successful `set` leaves the content files and the disk flag alone and
writes the pickled value, stamped `now`, at the computed entry name. -/
theorem set_success_shape
    (c : CacheManager) (fs : Fs) (now : Nat) (p lang : String) (v : Nat) (f : FsFile)
    (hf : lookupFile fs.ext p = some f) (hdisk : fs.diskFull = false) :
    ∃ l, c.set fs now p lang v =
      (true, { c with writes := c.writes + 1 },
       Fs.mk fs.ext
         (writeFile l (get_cache_path (get_file_hash p f) lang) ⟨pickleDump v, now, true⟩)
         false) := by
  by_cases hsz : c.max_size_mb * 1048576 ≤ get_cache_size_bytes fs
  · refine ⟨(cleanup_oldest_files fs 10).cdir, ?_⟩
    simp [CacheManager.set, hf, hsz, cleanup_oldest_files_diskFull, hdisk,
      cleanup_oldest_files_ext]
  · exact ⟨fs.cdir, by simp [CacheManager.set, hf, hsz, hdisk]⟩

/-- A fresh, readable, in-TTL entry at the computed name is returned by
`get`. -/
theorem get_returns_written
    (c : CacheManager) (fs : Fs) (now w : Nat) (p lang : String) (v : Nat) (f : FsFile)
    (hf : lookupFile fs.ext p = some f)
    (he : lookupFile fs.cdir (get_cache_path (get_file_hash p f) lang)
            = some ⟨pickleDump v, w, true⟩)
    (httl : now - w ≤ c.ttl) :
    (c.get fs now p lang).1 = some v := by
  have hnm : ¬(now - w > c.ttl) := by omega
  simp [CacheManager.get, hf, he, hnm, pickleDump, pickleLoad]

/-- Distinct dimensions give distinct entry-file names for the same
fingerprint: `f"{h}_{d}.cache"` determines `d` once `h` is fixed. -/
theorem get_cache_path_lang_ne (h d1 d2 : String) (hne : d1 ≠ d2) :
    get_cache_path h d1 ≠ get_cache_path h d2 := by
  intro heq
  apply hne
  apply String.ext
  have hdata := congrArg String.data heq
  unfold get_cache_path at hdata
  simp only [String.data_append, List.append_assoc, List.append_cancel_left_eq,
    List.append_cancel_right_eq] at hdata
  exact hdata

/-- C8: dimension isolation.  For the same content file, distinct dimensions
name distinct entry files, and after `set(c, d1, A)` followed by
`set(c, d2, B)`, a `get(c, d2)` within TTL returns `B` and never `A`. -/
theorem dimension_isolation
    (c : CacheManager) (fs : Fs) (n1 n2 n3 : Nat) (p d1 d2 : String) (A B : Nat)
    (f : FsFile)
    (hf : lookupFile fs.ext p = some f)
    (hdisk : fs.diskFull = false)
    (hne : d1 ≠ d2)
    (httl : n3 - n2 ≤ c.ttl) :
    get_cache_path (get_file_hash p f) d1 ≠ get_cache_path (get_file_hash p f) d2 ∧
    (∀ b1 c1 fs1 b2 c2 fs2,
      c.set fs n1 p d1 A = (b1, c1, fs1) →
      c1.set fs1 n2 p d2 B = (b2, c2, fs2) →
      (c2.get fs2 n3 p d2).1 = some B ∧
      (A ≠ B → (c2.get fs2 n3 p d2).1 ≠ some A)) := by
  refine ⟨get_cache_path_lang_ne _ d1 d2 hne, ?_⟩
  intro b1 c1 fs1 b2 c2 fs2 h1 h2
  obtain ⟨l1, hs1⟩ := set_success_shape c fs n1 p d1 A f hf hdisk
  have hq1 := h1.symm.trans hs1
  injection hq1 with hb1 hq1'
  injection hq1' with hc1 hfs1
  subst hc1
  subst hfs1
  have hf1 : lookupFile
      (Fs.mk fs.ext
        (writeFile l1 (get_cache_path (get_file_hash p f) d1) ⟨pickleDump A, n1, true⟩)
        false).ext p = some f := hf
  obtain ⟨l2, hs2⟩ := set_success_shape _ _ n2 p d2 B f hf1 rfl
  have hq2 := h2.symm.trans hs2
  injection hq2 with hb2 hq2'
  injection hq2' with hc2 hfs2
  subst hc2
  subst hfs2
  have hgot : (({ c with writes := c.writes + 1 + 1 } : CacheManager).get
      (Fs.mk fs.ext
        (writeFile l2 (get_cache_path (get_file_hash p f) d2) ⟨pickleDump B, n2, true⟩)
        false) n3 p d2).1 = some B := by
    refine get_returns_written _
      (Fs.mk fs.ext
        (writeFile l2 (get_cache_path (get_file_hash p f) d2) ⟨pickleDump B, n2, true⟩)
        false) n3 n2 p d2 B f hf (lookupFile_writeFile_self _ _ _) ?_
    simpa [CacheManager.ttl] using httl
  refine ⟨hgot, ?_⟩
  intro hAB hcon
  rw [hgot] at hcon
  exact hAB (Option.some.inj hcon).symm

/-- C8 witness: concrete run with dimensions "ru" and "en" on the same
content file. -/
theorem dimension_isolation_witness :
    get_cache_path (get_file_hash "a.wav" ⟨[3], 5, true⟩) "ru"
      ≠ get_cache_path (get_file_hash "a.wav" ⟨[3], 5, true⟩) "en" ∧
    (∀ b1 c1 fs1 b2 c2 fs2,
      CacheManager.set ⟨"cache", 24, 500, 0, 0, 0⟩
          (Fs.mk [("a.wav", ⟨[3], 5, true⟩)] [] false) 10 "a.wav" "ru" 1
        = (b1, c1, fs1) →
      c1.set fs1 20 "a.wav" "en" 2 = (b2, c2, fs2) →
      (c2.get fs2 30 "a.wav" "en").1 = some 2 ∧
      ((1 : Nat) ≠ 2 → (c2.get fs2 30 "a.wav" "en").1 ≠ some 1)) :=
  dimension_isolation ⟨"cache", 24, 500, 0, 0, 0⟩
    (Fs.mk [("a.wav", ⟨[3], 5, true⟩)] [] false) 10 20 30 "a.wav" "ru" "en" 1 2
    ⟨[3], 5, true⟩ (by decide) (by decide) (by decide) (by decide)

/-- C9: when the content file's bytes cannot be read, the fingerprint falls
back to a digest of the path, size and modification time, and `set`
followed by `get` still works (the cache stays operative). -/
theorem fallback_hash_keeps_cache_operative
    (c : CacheManager) (fs : Fs) (now now2 : Nat) (p lang : String) (v : Nat)
    (f : FsFile)
    (hf : lookupFile fs.ext p = some f)
    (hunread : f.readable = false)
    (hdisk : fs.diskFull = false)
    (httl : now2 - now ≤ c.ttl) :
    get_file_hash p f
      = md5HexOfString (p ++ "_" ++ toString f.data.length ++ "_" ++ toString f.mtime) ∧
    (c.set fs now p lang v).1 = true ∧
    ((c.set fs now p lang v).2.1.get (c.set fs now p lang v).2.2 now2 p lang).1
      = some v := by
  obtain ⟨l, hs⟩ := set_success_shape c fs now p lang v f hf hdisk
  refine ⟨by simp [get_file_hash, hunread], ?_, ?_⟩
  · rw [hs]
  · rw [hs]
    refine get_returns_written _
      (Fs.mk fs.ext
        (writeFile l (get_cache_path (get_file_hash p f) lang) ⟨pickleDump v, now, true⟩)
        false) now2 now p lang v f hf (lookupFile_writeFile_self _ _ _) ?_
    simpa [CacheManager.ttl] using httl

/-- C9 witness: an unreadable content file still round-trips through the
cache via the fallback fingerprint. -/
theorem fallback_hash_keeps_cache_operative_witness :
    get_file_hash "b.wav" ⟨[9, 9], 3, false⟩
      = md5HexOfString ("b.wav" ++ "_" ++ toString ([9, 9] : List Nat).length
          ++ "_" ++ toString (3 : Nat)) ∧
    (CacheManager.set ⟨"cache", 24, 500, 0, 0, 0⟩
        (Fs.mk [("b.wav", ⟨[9, 9], 3, false⟩)] [] false) 10 "b.wav" "ru" 5).1 = true ∧
    ((CacheManager.set ⟨"cache", 24, 500, 0, 0, 0⟩
        (Fs.mk [("b.wav", ⟨[9, 9], 3, false⟩)] [] false) 10 "b.wav" "ru" 5).2.1.get
      (CacheManager.set ⟨"cache", 24, 500, 0, 0, 0⟩
        (Fs.mk [("b.wav", ⟨[9, 9], 3, false⟩)] [] false) 10 "b.wav" "ru" 5).2.2
      20 "b.wav" "ru").1 = some 5 :=
  fallback_hash_keeps_cache_operative ⟨"cache", 24, 500, 0, 0, 0⟩
    (Fs.mk [("b.wav", ⟨[9, 9], 3, false⟩)] [] false) 10 20 "b.wav" "ru" 5
    ⟨[9, 9], 3, false⟩ (by decide) (by decide) (by decide) (by decide)

/-- Every name evicted by `_cleanup_oldest_files` comes from the listing
filtered to `.cache` files. -/
theorem cleanup_victims_end_with_cache (fs : Fs) (count : Nat) (nm : String)
    (hm : nm ∈ ((((fs.cdir.filter (fun p => ends_with_cache p.1)).mergeSort
        (fun a b => decide (a.2.mtime ≤ b.2.mtime))).take count).map Prod.fst)) :
    ends_with_cache nm = true := by
  simp only [List.mem_map] at hm
  obtain ⟨q, hq, rfl⟩ := hm
  have hq2 : q ∈ (fs.cdir.filter (fun p => ends_with_cache p.1)).mergeSort
      (fun a b => decide (a.2.mtime ≤ b.2.mtime)) := List.mem_of_mem_take hq
  rw [List.mem_mergeSort] at hq2
  exact (List.mem_filter.mp hq2).2

/-- C10: the three removal paths — the size-triggered eviction sweep, the
TTL sweep and the full purge — delete only files whose name ends in
`.cache` inside the cache directory; any other file there, and every
content file, is left unchanged. -/
theorem removal_paths_only_delete_cache_files
    (c : CacheManager) (fs : Fs) (count now : Nat) (name : String)
    (hname : ends_with_cache name = false) :
    lookupFile (cleanup_oldest_files fs count).cdir name = lookupFile fs.cdir name ∧
    (cleanup_oldest_files fs count).ext = fs.ext ∧
    lookupFile (c.clear_old_cache fs now).2.cdir name = lookupFile fs.cdir name ∧
    (c.clear_old_cache fs now).2.ext = fs.ext ∧
    lookupFile (c.clear_all_cache fs).2.2.cdir name = lookupFile fs.cdir name ∧
    (c.clear_all_cache fs).2.2.ext = fs.ext := by
  refine ⟨?_, rfl, ?_, rfl, ?_, rfl⟩
  · show lookupFile (fs.cdir.filter _) name = lookupFile fs.cdir name
    apply lookupFile_filter_of_key
    intro p hp
    have hnm : ¬ name ∈ ((((fs.cdir.filter (fun p => ends_with_cache p.1)).mergeSort
        (fun a b => decide (a.2.mtime ≤ b.2.mtime))).take count).map Prod.fst) := by
      intro hcon
      rw [cleanup_victims_end_with_cache fs count name hcon] at hname
      cases hname
    rw [List.map_take] at hnm
    simp [hp, List.contains, hnm]
  · apply lookupFile_filter_of_key
    intro p hp
    simp [hp, hname]
  · apply lookupFile_filter_of_key
    intro p hp
    simp [hp, hname]

/-- C10 witness: a non-cache file sitting in the cache directory survives
all three removal paths. -/
theorem removal_paths_only_delete_cache_files_witness :
    lookupFile (cleanup_oldest_files
        (Fs.mk [] [("readme.txt", ⟨[1], 0, true⟩), ("x_ru.cache", ⟨[2], 0, true⟩)] false)
        10).cdir "readme.txt"
      = lookupFile [("readme.txt", ⟨[1], 0, true⟩), ("x_ru.cache", ⟨[2], 0, true⟩)]
          "readme.txt" ∧
    (cleanup_oldest_files
        (Fs.mk [] [("readme.txt", ⟨[1], 0, true⟩), ("x_ru.cache", ⟨[2], 0, true⟩)] false)
        10).ext = (Fs.mk [] [("readme.txt", ⟨[1], 0, true⟩),
          ("x_ru.cache", ⟨[2], 0, true⟩)] false).ext ∧
    lookupFile (CacheManager.clear_old_cache ⟨"cache", 24, 500, 0, 0, 0⟩
        (Fs.mk [] [("readme.txt", ⟨[1], 0, true⟩), ("x_ru.cache", ⟨[2], 0, true⟩)] false)
        999999).2.cdir "readme.txt"
      = lookupFile [("readme.txt", ⟨[1], 0, true⟩), ("x_ru.cache", ⟨[2], 0, true⟩)]
          "readme.txt" ∧
    (CacheManager.clear_old_cache ⟨"cache", 24, 500, 0, 0, 0⟩
        (Fs.mk [] [("readme.txt", ⟨[1], 0, true⟩), ("x_ru.cache", ⟨[2], 0, true⟩)] false)
        999999).2.ext = (Fs.mk [] [("readme.txt", ⟨[1], 0, true⟩),
          ("x_ru.cache", ⟨[2], 0, true⟩)] false).ext ∧
    lookupFile (CacheManager.clear_all_cache ⟨"cache", 24, 500, 0, 0, 0⟩
        (Fs.mk [] [("readme.txt", ⟨[1], 0, true⟩), ("x_ru.cache", ⟨[2], 0, true⟩)] false)
        ).2.2.cdir "readme.txt"
      = lookupFile [("readme.txt", ⟨[1], 0, true⟩), ("x_ru.cache", ⟨[2], 0, true⟩)]
          "readme.txt" ∧
    (CacheManager.clear_all_cache ⟨"cache", 24, 500, 0, 0, 0⟩
        (Fs.mk [] [("readme.txt", ⟨[1], 0, true⟩), ("x_ru.cache", ⟨[2], 0, true⟩)] false)
        ).2.2.ext = (Fs.mk [] [("readme.txt", ⟨[1], 0, true⟩),
          ("x_ru.cache", ⟨[2], 0, true⟩)] false).ext :=
  removal_paths_only_delete_cache_files ⟨"cache", 24, 500, 0, 0, 0⟩
    (Fs.mk [] [("readme.txt", ⟨[1], 0, true⟩), ("x_ru.cache", ⟨[2], 0, true⟩)] false)
    10 999999 "readme.txt" (by decide)

/-- The stable sort used by the eviction pass is sorted by mtime. -/
theorem eviction_sort_sorted (l : List (String × FsFile)) :
    List.Sorted (fun a b : String × FsFile => decide (a.2.mtime ≤ b.2.mtime) = true)
      (l.mergeSort (fun a b => decide (a.2.mtime ≤ b.2.mtime))) := by
  have htrans : ∀ (a b c : String × FsFile),
      decide (a.2.mtime ≤ b.2.mtime) = true → decide (b.2.mtime ≤ c.2.mtime) = true →
      decide (a.2.mtime ≤ c.2.mtime) = true := by
    intro a b c hab hbc
    rw [decide_eq_true_iff] at hab hbc ⊢
    omega
  have htotal : ∀ (a b : String × FsFile),
      (decide (a.2.mtime ≤ b.2.mtime) || decide (b.2.mtime ≤ a.2.mtime)) = true := by
    intro a b
    rcases Nat.le_total a.2.mtime b.2.mtime with h | h <;> simp [h]
  exact List.sorted_mergeSort htrans htotal l

/-- A `.cache` entry that the eviction pass removed sits in the first
`count` places of the mtime-sorted listing. -/
theorem cleanup_removed_mem_take (fs : Fs) (count : Nat)
    (hnd : (fs.cdir.map Prod.fst).Nodup)
    (a : String × FsFile) (ha : a ∈ fs.cdir) (hae : ends_with_cache a.1 = true)
    (har : a ∉ (cleanup_oldest_files fs count).cdir) :
    a ∈ ((fs.cdir.filter (fun p => ends_with_cache p.1)).mergeSort
        (fun a b => decide (a.2.mtime ≤ b.2.mtime))).take count := by
  have haF : a ∈ fs.cdir.filter (fun p => ends_with_cache p.1) :=
    List.mem_filter.mpr ⟨ha, hae⟩
  have haS : a ∈ (fs.cdir.filter (fun p => ends_with_cache p.1)).mergeSort
      (fun a b => decide (a.2.mtime ≤ b.2.mtime)) := List.mem_mergeSort.mpr haF
  have hSnd : (((fs.cdir.filter (fun p => ends_with_cache p.1)).mergeSort
      (fun a b => decide (a.2.mtime ≤ b.2.mtime))).map Prod.fst).Nodup := by
    have hperm := List.mergeSort_perm (fs.cdir.filter (fun p => ends_with_cache p.1))
      (fun a b : String × FsFile => decide (a.2.mtime ≤ b.2.mtime))
    have hFnd : ((fs.cdir.filter (fun p => ends_with_cache p.1)).map Prod.fst).Nodup :=
      ((fs.cdir.filter_sublist).map Prod.fst).nodup hnd
    exact ((hperm.map Prod.fst).nodup_iff).mpr hFnd
  have hkeep : (!(((((fs.cdir.filter (fun p => ends_with_cache p.1)).mergeSort
      (fun a b => decide (a.2.mtime ≤ b.2.mtime))).take count).map
        Prod.fst).contains a.1)) = false := by
    by_contra hcon
    rw [Bool.not_eq_false] at hcon
    exact har (List.mem_filter.mpr ⟨ha, hcon⟩)
  have hV : a.1 ∈ (((fs.cdir.filter (fun p => ends_with_cache p.1)).mergeSort
      (fun a b => decide (a.2.mtime ≤ b.2.mtime))).take count).map Prod.fst := by
    simp only [List.contains, Bool.not_eq_false] at hkeep
    simpa using hkeep
  obtain ⟨a2, ha2take, ha2key⟩ := List.mem_map.mp hV
  have ha2S : a2 ∈ (fs.cdir.filter (fun p => ends_with_cache p.1)).mergeSort
      (fun a b => decide (a.2.mtime ≤ b.2.mtime)) := List.mem_of_mem_take ha2take
  have heq : a2 = a := List.inj_on_of_nodup_map hSnd ha2S haS ha2key
  exact heq ▸ ha2take

/-- A `.cache` entry that survives the eviction pass sits past the first
`count` places of the mtime-sorted listing. -/
theorem cleanup_kept_mem_drop (fs : Fs) (count : Nat)
    (hnd : (fs.cdir.map Prod.fst).Nodup)
    (b : String × FsFile) (hb : b ∈ fs.cdir) (hbe : ends_with_cache b.1 = true)
    (hbk : b ∈ (cleanup_oldest_files fs count).cdir) :
    b ∈ ((fs.cdir.filter (fun p => ends_with_cache p.1)).mergeSort
        (fun a b => decide (a.2.mtime ≤ b.2.mtime))).drop count := by
  have hbF : b ∈ fs.cdir.filter (fun p => ends_with_cache p.1) :=
    List.mem_filter.mpr ⟨hb, hbe⟩
  have hbS : b ∈ (fs.cdir.filter (fun p => ends_with_cache p.1)).mergeSort
      (fun a b => decide (a.2.mtime ≤ b.2.mtime)) := List.mem_mergeSort.mpr hbF
  have hSnd : (((fs.cdir.filter (fun p => ends_with_cache p.1)).mergeSort
      (fun a b => decide (a.2.mtime ≤ b.2.mtime))).map Prod.fst).Nodup := by
    have hperm := List.mergeSort_perm (fs.cdir.filter (fun p => ends_with_cache p.1))
      (fun a b : String × FsFile => decide (a.2.mtime ≤ b.2.mtime))
    have hFnd : ((fs.cdir.filter (fun p => ends_with_cache p.1)).map Prod.fst).Nodup :=
      ((fs.cdir.filter_sublist).map Prod.fst).nodup hnd
    exact ((hperm.map Prod.fst).nodup_iff).mpr hFnd
  have hkeep : (!(((((fs.cdir.filter (fun p => ends_with_cache p.1)).mergeSort
      (fun a b => decide (a.2.mtime ≤ b.2.mtime))).take count).map
        Prod.fst).contains b.1)) = true := (List.mem_filter.mp hbk).2
  have hbV : b.1 ∉ (((fs.cdir.filter (fun p => ends_with_cache p.1)).mergeSort
      (fun a b => decide (a.2.mtime ≤ b.2.mtime))).take count).map Prod.fst := by
    simp only [List.contains, Bool.not_eq_true'] at hkeep
    simpa using hkeep
  have hsplit := List.take_append_drop count
    ((fs.cdir.filter (fun p => ends_with_cache p.1)).mergeSort
      (fun a b => decide (a.2.mtime ≤ b.2.mtime)))
  have hbS2 : b ∈ ((fs.cdir.filter (fun p => ends_with_cache p.1)).mergeSort
      (fun a b => decide (a.2.mtime ≤ b.2.mtime))).take count ++
      ((fs.cdir.filter (fun p => ends_with_cache p.1)).mergeSort
      (fun a b => decide (a.2.mtime ≤ b.2.mtime))).drop count := by
    rw [hsplit]; exact hbS
  rcases List.mem_append.mp hbS2 with h | h
  · exact absurd (List.mem_map_of_mem Prod.fst h) hbV
  · exact h

/-- Filtering splits across a take/drop decomposition. -/
theorem filter_take_drop {X : Type} (pr : X → Bool) (l : List X) (n : Nat) :
    l.filter pr = (l.take n).filter pr ++ (l.drop n).filter pr := by
  conv_lhs => rw [← List.take_append_drop n l]
  rw [List.filter_append]

/-- The eviction pass removes exactly `count` cache entries (all of them
when fewer than `count` exist). -/
theorem cleanup_batch_count (fs : Fs) (count : Nat)
    (hnd : (fs.cdir.map Prod.fst).Nodup) :
    ((cleanup_oldest_files fs count).cdir.filter (fun q => ends_with_cache q.1)).length
      = (fs.cdir.filter (fun q => ends_with_cache q.1)).length - count := by
  have hperm := List.mergeSort_perm (fs.cdir.filter (fun p => ends_with_cache p.1))
    (fun a b : String × FsFile => decide (a.2.mtime ≤ b.2.mtime))
  have hFnd : ((fs.cdir.filter (fun p => ends_with_cache p.1)).map Prod.fst).Nodup :=
    ((fs.cdir.filter_sublist).map Prod.fst).nodup hnd
  have hSnd : (((fs.cdir.filter (fun p => ends_with_cache p.1)).mergeSort
      (fun a b => decide (a.2.mtime ≤ b.2.mtime))).map Prod.fst).Nodup :=
    ((hperm.map Prod.fst).nodup_iff).mpr hFnd
  have hSel : ((fs.cdir.filter (fun p => ends_with_cache p.1)).mergeSort
      (fun a b => decide (a.2.mtime ≤ b.2.mtime))).Nodup :=
    List.Nodup.of_map Prod.fst hSnd
  have hstep1 : (cleanup_oldest_files fs count).cdir.filter (fun q => ends_with_cache q.1)
      = fs.cdir.filter (fun a => ends_with_cache a.1 &&
          !(((((fs.cdir.filter (fun p => ends_with_cache p.1)).mergeSort
            (fun a b => decide (a.2.mtime ≤ b.2.mtime))).take count).map
              Prod.fst).contains a.1)) := by
    show (fs.cdir.filter _).filter _ = _
    rw [List.filter_filter]
  have hstep2 : (fs.cdir.filter (fun p => ends_with_cache p.1)).filter
      (fun a => !(((((fs.cdir.filter (fun p => ends_with_cache p.1)).mergeSort
        (fun a b => decide (a.2.mtime ≤ b.2.mtime))).take count).map
          Prod.fst).contains a.1))
      = fs.cdir.filter (fun a => ends_with_cache a.1 &&
          !(((((fs.cdir.filter (fun p => ends_with_cache p.1)).mergeSort
            (fun a b => decide (a.2.mtime ≤ b.2.mtime))).take count).map
              Prod.fst).contains a.1)) := by
    rw [List.filter_filter]
    apply List.filter_congr
    intro a _
    exact Bool.and_comm _ _
  rw [hstep1, ← hstep2]
  have hpermf := hperm.filter
    (fun a => !(((((fs.cdir.filter (fun p => ends_with_cache p.1)).mergeSort
      (fun a b => decide (a.2.mtime ≤ b.2.mtime))).take count).map
        Prod.fst).contains a.1))
  rw [← hpermf.length_eq]
  rw [filter_take_drop
    (fun a => !(((((fs.cdir.filter (fun p => ends_with_cache p.1)).mergeSort
      (fun a b => decide (a.2.mtime ≤ b.2.mtime))).take count).map
        Prod.fst).contains a.1))
    ((fs.cdir.filter (fun p => ends_with_cache p.1)).mergeSort
      (fun a b => decide (a.2.mtime ≤ b.2.mtime))) count]
  have hsplitnd : (((fs.cdir.filter (fun p => ends_with_cache p.1)).mergeSort
      (fun a b => decide (a.2.mtime ≤ b.2.mtime))).take count ++
      ((fs.cdir.filter (fun p => ends_with_cache p.1)).mergeSort
      (fun a b => decide (a.2.mtime ≤ b.2.mtime))).drop count).Nodup := by
    rw [List.take_append_drop]
    exact hSel
  obtain ⟨-, -, hdisj⟩ := List.nodup_append.mp hsplitnd
  have htake : (((fs.cdir.filter (fun p => ends_with_cache p.1)).mergeSort
      (fun a b => decide (a.2.mtime ≤ b.2.mtime))).take count).filter
      (fun a => !(((((fs.cdir.filter (fun p => ends_with_cache p.1)).mergeSort
        (fun a b => decide (a.2.mtime ≤ b.2.mtime))).take count).map
          Prod.fst).contains a.1)) = [] := by
    rw [List.filter_eq_nil_iff]
    intro a hmem hcon
    have hVmem : a.1 ∈ (((fs.cdir.filter (fun p => ends_with_cache p.1)).mergeSort
        (fun a b => decide (a.2.mtime ≤ b.2.mtime))).take count).map Prod.fst :=
      List.mem_map_of_mem Prod.fst hmem
    rw [List.map_take] at hVmem
    exact absurd hcon (by simp [List.contains, hVmem])
  have hdrop : (((fs.cdir.filter (fun p => ends_with_cache p.1)).mergeSort
      (fun a b => decide (a.2.mtime ≤ b.2.mtime))).drop count).filter
      (fun a => !(((((fs.cdir.filter (fun p => ends_with_cache p.1)).mergeSort
        (fun a b => decide (a.2.mtime ≤ b.2.mtime))).take count).map
          Prod.fst).contains a.1))
      = ((fs.cdir.filter (fun p => ends_with_cache p.1)).mergeSort
          (fun a b => decide (a.2.mtime ≤ b.2.mtime))).drop count := by
    rw [List.filter_eq_self]
    intro b hmem
    have hnot : b.1 ∉ (((fs.cdir.filter (fun p => ends_with_cache p.1)).mergeSort
        (fun a b => decide (a.2.mtime ≤ b.2.mtime))).take count).map Prod.fst := by
      intro hcon
      obtain ⟨a2, ha2take, ha2key⟩ := List.mem_map.mp hcon
      have ha2S : a2 ∈ (fs.cdir.filter (fun p => ends_with_cache p.1)).mergeSort
          (fun a b => decide (a.2.mtime ≤ b.2.mtime)) := List.mem_of_mem_take ha2take
      have hbS : b ∈ (fs.cdir.filter (fun p => ends_with_cache p.1)).mergeSort
          (fun a b => decide (a.2.mtime ≤ b.2.mtime)) := List.mem_of_mem_drop hmem
      have heq : a2 = b := List.inj_on_of_nodup_map hSnd ha2S hbS ha2key
      exact hdisj (heq ▸ ha2take) hmem
    rw [List.map_take] at hnot
    simp [List.contains, hnot]
  rw [htake, hdrop]
  simp [List.length_drop]

/-- C3: a `set` issued while the store is at or above its size budget first
runs the eviction pass — removing a batch of ten entries, strictly
oldest-by-write-time first — and only then writes the new entry,
overwriting any existing entry at that key. -/
theorem set_at_budget_evicts_oldest_batch_then_writes
    (c : CacheManager) (fs : Fs) (now : Nat) (file_path lang : String) (v : Nat)
    (f : FsFile)
    (hf : lookupFile fs.ext file_path = some f)
    (hdisk : fs.diskFull = false)
    (hnd : (fs.cdir.map Prod.fst).Nodup)
    (hsz : c.max_size_mb * 1048576 ≤ get_cache_size_bytes fs) :
    (c.set fs now file_path lang v).1 = true ∧
    (c.set fs now file_path lang v).2.2.cdir
      = writeFile (cleanup_oldest_files fs 10).cdir
          (get_cache_path (get_file_hash file_path f) lang) ⟨pickleDump v, now, true⟩ ∧
    (∀ a ∈ fs.cdir, ∀ b ∈ fs.cdir,
      ends_with_cache a.1 = true → ends_with_cache b.1 = true →
      a ∉ (cleanup_oldest_files fs 10).cdir → b ∈ (cleanup_oldest_files fs 10).cdir →
      a.2.mtime ≤ b.2.mtime) ∧
    ((cleanup_oldest_files fs 10).cdir.filter (fun q => ends_with_cache q.1)).length
      = (fs.cdir.filter (fun q => ends_with_cache q.1)).length - 10 ∧
    lookupFile (c.set fs now file_path lang v).2.2.cdir
      (get_cache_path (get_file_hash file_path f) lang)
      = some ⟨pickleDump v, now, true⟩ := by
  have hcdir : (c.set fs now file_path lang v).2.2.cdir
      = writeFile (cleanup_oldest_files fs 10).cdir
          (get_cache_path (get_file_hash file_path f) lang)
          ⟨pickleDump v, now, true⟩ := by
    simp [CacheManager.set, hf, hsz, hdisk, cleanup_oldest_files_diskFull]
  refine ⟨?_, hcdir, ?_, cleanup_batch_count fs 10 hnd, ?_⟩
  · simp [CacheManager.set, hf, hsz, hdisk, cleanup_oldest_files_diskFull]
  · intro a ha b hb hae hbe har hbk
    have hatake := cleanup_removed_mem_take fs 10 hnd a ha hae har
    have hbdrop := cleanup_kept_mem_drop fs 10 hnd b hb hbe hbk
    have hsorted := eviction_sort_sorted (fs.cdir.filter (fun p => ends_with_cache p.1))
    have hrel := hsorted.rel_of_mem_take_of_mem_drop hatake hbdrop
    exact of_decide_eq_true hrel
  · rw [hcdir]
    exact lookupFile_writeFile_self _ _ _

/-- C3 witness: a store over budget (budget 0 MB) evicts before a write,
oldest first, and the new entry lands at its key. -/
theorem set_at_budget_evicts_oldest_batch_then_writes_witness :
    (CacheManager.set ⟨"cache", 24, 0, 0, 0, 0⟩
        (Fs.mk [("a.wav", ⟨[3], 5, true⟩)]
          [("old_ru.cache", ⟨[1], 1, true⟩), ("new_ru.cache", ⟨[2], 9, true⟩)] false)
        30 "a.wav" "ru" 7).1 = true ∧
    (CacheManager.set ⟨"cache", 24, 0, 0, 0, 0⟩
        (Fs.mk [("a.wav", ⟨[3], 5, true⟩)]
          [("old_ru.cache", ⟨[1], 1, true⟩), ("new_ru.cache", ⟨[2], 9, true⟩)] false)
        30 "a.wav" "ru" 7).2.2.cdir
      = writeFile (cleanup_oldest_files
          (Fs.mk [("a.wav", ⟨[3], 5, true⟩)]
            [("old_ru.cache", ⟨[1], 1, true⟩), ("new_ru.cache", ⟨[2], 9, true⟩)] false)
          10).cdir
          (get_cache_path (get_file_hash "a.wav" ⟨[3], 5, true⟩) "ru")
          ⟨pickleDump 7, 30, true⟩ ∧
    (∀ a ∈ [("old_ru.cache", (⟨[1], 1, true⟩ : FsFile)),
            ("new_ru.cache", (⟨[2], 9, true⟩ : FsFile))],
      ∀ b ∈ [("old_ru.cache", (⟨[1], 1, true⟩ : FsFile)),
             ("new_ru.cache", (⟨[2], 9, true⟩ : FsFile))],
      ends_with_cache a.1 = true → ends_with_cache b.1 = true →
      a ∉ (cleanup_oldest_files
          (Fs.mk [("a.wav", ⟨[3], 5, true⟩)]
            [("old_ru.cache", ⟨[1], 1, true⟩), ("new_ru.cache", ⟨[2], 9, true⟩)] false)
          10).cdir →
      b ∈ (cleanup_oldest_files
          (Fs.mk [("a.wav", ⟨[3], 5, true⟩)]
            [("old_ru.cache", ⟨[1], 1, true⟩), ("new_ru.cache", ⟨[2], 9, true⟩)] false)
          10).cdir →
      a.2.mtime ≤ b.2.mtime) ∧
    ((cleanup_oldest_files
        (Fs.mk [("a.wav", ⟨[3], 5, true⟩)]
          [("old_ru.cache", ⟨[1], 1, true⟩), ("new_ru.cache", ⟨[2], 9, true⟩)] false)
        10).cdir.filter (fun q => ends_with_cache q.1)).length
      = ([("old_ru.cache", (⟨[1], 1, true⟩ : FsFile)),
          ("new_ru.cache", (⟨[2], 9, true⟩ : FsFile))].filter
            (fun q => ends_with_cache q.1)).length - 10 ∧
    lookupFile (CacheManager.set ⟨"cache", 24, 0, 0, 0, 0⟩
        (Fs.mk [("a.wav", ⟨[3], 5, true⟩)]
          [("old_ru.cache", ⟨[1], 1, true⟩), ("new_ru.cache", ⟨[2], 9, true⟩)] false)
        30 "a.wav" "ru" 7).2.2.cdir
      (get_cache_path (get_file_hash "a.wav" ⟨[3], 5, true⟩) "ru")
      = some ⟨pickleDump 7, 30, true⟩ :=
  set_at_budget_evicts_oldest_batch_then_writes ⟨"cache", 24, 0, 0, 0, 0⟩
    (Fs.mk [("a.wav", ⟨[3], 5, true⟩)]
      [("old_ru.cache", ⟨[1], 1, true⟩), ("new_ru.cache", ⟨[2], 9, true⟩)] false)
    30 "a.wav" "ru" 7 ⟨[3], 5, true⟩ (by decide) (by decide) (by decide) (by decide)

/-! ## ProcessingQueue

src/bot/core/processing_queue.py is concurrent asyncio code; it is embedded
as a labelled transition system.  A step is one of the atomic actions the
event loop interleaves: `add_task` admitting or rejecting a submission, a
worker pulling a task off the shared queue, a worker finishing a task and
resolving its future, `cancel_task`, and the awaiting caller in `add_task`
waking up on a resolved future (observing the terminal outcome and popping
`self.results`).  Futures are identified by a fresh counter (each
`add_task` call creates a new `asyncio.Future`). -/

/-- A terminal outcome a caller can observe for a task: a result value, a
re-raised exception, or cancellation. -/
inductive Outcome where
  | value (v : Nat)
  | error (e : Nat)
  | cancelled
deriving DecidableEq, Repr

/-- The state of an `asyncio.Future`: pending, or resolved with a terminal
outcome. -/
inductive Slot where
  | pending
  | done (o : Outcome)
deriving DecidableEq, Repr

/-- What executing the task's bound operation yields: a return value or a
raised exception.  The queue treats the operation as opaque, so a task is
abstracted by this result. -/
inductive RunResult where
  | returns (v : Nat)
  | raises (e : Nat)
deriving DecidableEq, Repr

/-- The task data `add_task` enqueues: the caller-supplied id and the bound
operation (abstracted by its execution result). -/
structure QTask where
  task_id : Nat
  run : RunResult
deriving DecidableEq, Repr

/-- The worker's resolution of a future: `set_result`/`set_exception`, each
guarded by `if not future.done()` — an already-resolved future is left
alone. -/
def resolveSlot : Slot → RunResult → Slot
  | .pending, .returns v => .done (.value v)
  | .pending, .raises e => .done (.error e)
  | .done o, _ => .done o

/-- Point update of a finite map (a Python dict). -/
def upd {α : Type} (m : Nat → Option α) (k : Nat) (v : Option α) : Nat → Option α :=
  fun x => if x = k then v else m x

/-- The state of a `ProcessingQueue`: configuration, a fresh-future counter,
the future table, `self.results` (task id → future of the latest submission
under that id), the `asyncio.Queue` contents, the tasks currently being
executed by workers, and the callers suspended in `add_task` awaiting their
future. -/
structure QState where
  max_workers : Nat
  max_queue_size : Nat
  nextf : Nat
  futures : Nat → Option Slot
  results : Nat → Option Nat
  task_queue : List (Nat × QTask)
  executing : List (Nat × Nat × QTask)
  waiting : List (Nat × Nat)

/-- The queue as constructed, with workers started. -/
def initQState (max_workers max_queue_size : Nat) : QState :=
  ⟨max_workers, max_queue_size, 0, fun _ => none, fun _ => none, [], [], []⟩

/-- Observable events of the queue. -/
inductive Ev where
  | submit (t : QTask) (fid : Nat)
  | reject (t : QTask)
  | dequeue (w fid : Nat) (t : QTask)
  | complete (w fid : Nat) (t : QTask)
  | cancel (id : Nat)
  | observe (id fid : Nat) (o : Outcome)
deriving DecidableEq, Repr

/-- One atomic action of the system, as implemented:

* `submit` — `add_task` past the capacity check: creates a fresh pending
  future, stores it in `self.results[task_id]`, enqueues the task data, and
  suspends the caller on the future (`qsize() < max_queue_size` required,
  no await between the check and the put).
* `reject` — `add_task` raising `"Очередь переполнена"` when
  `qsize() >= max_queue_size`; note only the queue contents count, not
  tasks already pulled by a worker.
* `dequeue` — an idle worker `w` gets the head task off the shared queue.
* `complete` — worker `w` finishes executing: resolves the future with the
  result or the captured exception unless it is already done, marks
  `task_done`, and loops for the next task.
* `cancel` — `cancel_task`: cancels the future found in `self.results` if
  it is still pending.
* `observe` — the caller suspended in `add_task` wakes on its resolved
  future, observes the terminal outcome (result, re-raised error, or
  cancellation) and pops `self.results[task_id]` in the `finally`. -/
inductive Step : QState → Ev → QState → Prop where
  | submit (s : QState) (t : QTask)
      (hq : s.task_queue.length < s.max_queue_size) :
      Step s (.submit t s.nextf)
        { s with
          nextf := s.nextf + 1
          futures := upd s.futures s.nextf (some .pending)
          results := upd s.results t.task_id (some s.nextf)
          task_queue := s.task_queue ++ [(s.nextf, t)]
          waiting := (t.task_id, s.nextf) :: s.waiting }
  | reject (s : QState) (t : QTask)
      (hq : s.max_queue_size ≤ s.task_queue.length) :
      Step s (.reject t) s
  | dequeue (s : QState) (w fid : Nat) (t : QTask) (rest : List (Nat × QTask))
      (hw : w < s.max_workers)
      (hfree : ∀ x ∈ s.executing, x.1 ≠ w)
      (hq : s.task_queue = (fid, t) :: rest) :
      Step s (.dequeue w fid t)
        { s with task_queue := rest, executing := (w, fid, t) :: s.executing }
  | complete (s : QState) (w fid : Nat) (t : QTask) (sl : Slot)
      (hex : (w, fid, t) ∈ s.executing)
      (hsl : s.futures fid = some sl) :
      Step s (.complete w fid t)
        { s with
          executing := s.executing.erase (w, fid, t)
          futures := upd s.futures fid (some (resolveSlot sl t.run)) }
  | cancel (s : QState) (id fid : Nat)
      (hr : s.results id = some fid)
      (hp : s.futures fid = some .pending) :
      Step s (.cancel id)
        { s with futures := upd s.futures fid (some (.done .cancelled)) }
  | observe (s : QState) (id fid : Nat) (o : Outcome)
      (hw : (id, fid) ∈ s.waiting)
      (hd : s.futures fid = some (.done o)) :
      Step s (.observe id fid o)
        { s with
          waiting := s.waiting.erase (id, fid)
          results := upd s.results id none }

/-- A finite run of the system. -/
inductive Trace : QState → List Ev → QState → Prop where
  | nil (s : QState) : Trace s [] s
  | cons {s s2 s3 : QState} {e : Ev} {es : List Ev} :
      Step s e s2 → Trace s2 es s3 → Trace s (e :: es) s3

/-- Is this event a submission creating future `fid`? -/
def isSubmitOf (fid : Nat) : Ev → Bool
  | .submit _ f => f == fid
  | _ => false

/-- Is this event a worker pulling the task of future `fid`? -/
def isDequeueOf (fid : Nat) : Ev → Bool
  | .dequeue _ f _ => f == fid
  | _ => false

/-- Is this event a worker completing the task of future `fid`? -/
def isCompleteOf (fid : Nat) : Ev → Bool
  | .complete _ f _ => f == fid
  | _ => false

/-- Is this event the caller of future `fid` observing its outcome? -/
def isObserveOf (fid : Nat) : Ev → Bool
  | .observe _ f _ => f == fid
  | _ => false

/-- Number of submissions of future `fid` in a trace. -/
def cSub (fid : Nat) (es : List Ev) : Nat := es.countP (isSubmitOf fid)

/-- Number of times a worker pulled the task of future `fid`. -/
def cDeq (fid : Nat) (es : List Ev) : Nat := es.countP (isDequeueOf fid)

/-- Number of times a worker completed the task of future `fid`. -/
def cComp (fid : Nat) (es : List Ev) : Nat := es.countP (isCompleteOf fid)

/-- Number of times the caller of future `fid` observed an outcome. -/
def cObs (fid : Nat) (es : List Ev) : Nat := es.countP (isObserveOf fid)

/-- Occurrences of future `fid` in the pending queue. -/
def multQ (fid : Nat) (s : QState) : Nat := s.task_queue.countP (fun p => p.1 == fid)

/-- Occurrences of future `fid` among executing tasks. -/
def multE (fid : Nat) (s : QState) : Nat := s.executing.countP (fun x => x.2.1 == fid)

/-- Occurrences of future `fid` among suspended callers. -/
def multW (fid : Nat) (s : QState) : Nat := s.waiting.countP (fun p => p.2 == fid)

/-- Trace invariant tying the event counts of a run to the state it
reaches. -/
structure QInv (es : List Ev) (s : QState) : Prop where
  sub_eq : ∀ fid, cSub fid es = if (s.futures fid).isSome then 1 else 0
  deq_eq : ∀ fid, cDeq fid es + multQ fid s = cSub fid es
  obs_eq : ∀ fid, cObs fid es + multW fid s = cSub fid es
  comp_eq : ∀ fid, cComp fid es + multE fid s = cDeq fid es
  fresh : ∀ fid, s.nextf ≤ fid → s.futures fid = none
  comp_done : ∀ fid, 0 < cComp fid es → ∃ o, s.futures fid = some (.done o)
  w_nodup : (s.executing.map (fun x => x.1)).Nodup
  w_lt : ∀ x ∈ s.executing, x.1 < s.max_workers

theorem countP_snoc {α : Type} (p : α → Bool) (es : List α) (e : α) :
    (es ++ [e]).countP p = es.countP p + (if p e then 1 else 0) := by
  rw [List.countP_append]
  simp [List.countP_cons]

theorem countP_erase_add {α : Type} [BEq α] [LawfulBEq α] (l : List α) (a : α) (p : α → Bool)
    (h : a ∈ l) :
    (l.erase a).countP p + (if p a then 1 else 0) = l.countP p := by
  obtain ⟨l1, l2, -, hl, he⟩ := List.exists_erase_eq h
  rw [he, hl]
  simp [List.countP_append, List.countP_cons]
  omega

theorem upd_same {α : Type} (m : Nat → Option α) (k : Nat) (v : Option α) :
    upd m k v k = v := by simp [upd]

theorem upd_other {α : Type} (m : Nat → Option α) (k : Nat) (v : Option α) (x : Nat)
    (h : x ≠ k) : upd m k v x = m x := by simp [upd, h]

theorem cSub_snoc (fid : Nat) (es : List Ev) (e : Ev) :
    cSub fid (es ++ [e]) = cSub fid es + (if isSubmitOf fid e then 1 else 0) :=
  countP_snoc _ _ _

theorem cDeq_snoc (fid : Nat) (es : List Ev) (e : Ev) :
    cDeq fid (es ++ [e]) = cDeq fid es + (if isDequeueOf fid e then 1 else 0) :=
  countP_snoc _ _ _

theorem cComp_snoc (fid : Nat) (es : List Ev) (e : Ev) :
    cComp fid (es ++ [e]) = cComp fid es + (if isCompleteOf fid e then 1 else 0) :=
  countP_snoc _ _ _

theorem cObs_snoc (fid : Nat) (es : List Ev) (e : Ev) :
    cObs fid (es ++ [e]) = cObs fid es + (if isObserveOf fid e then 1 else 0) :=
  countP_snoc _ _ _

theorem resolveSlot_done (sl : Slot) (r : RunResult) :
    ∃ o, resolveSlot sl r = .done o := by
  cases sl <;> cases r <;> exact ⟨_, rfl⟩

theorem qinv_step {es : List Ev} {s : QState} {e : Ev} {s2 : QState}
    (hinv : QInv es s) (h : Step s e s2) : QInv (es ++ [e]) s2 := by
  cases h with
  | submit t hq =>
    constructor
    · intro fid
      rw [cSub_snoc]
      have h0 := hinv.fresh s.nextf (Nat.le_refl _)
      have h1 := hinv.sub_eq fid
      by_cases hf : fid = s.nextf
      · subst hf
        rw [h0] at h1
        simp at h1
        simp [isSubmitOf, upd_same, h1]
      · have hne : s.nextf ≠ fid := fun hh => hf hh.symm
        simp [isSubmitOf, hne, upd_other _ _ _ _ hf, h1]
    · intro fid
      rw [cDeq_snoc, cSub_snoc]
      have h0 := hinv.fresh s.nextf (Nat.le_refl _)
      have h1 := hinv.deq_eq fid
      have h2 := hinv.sub_eq fid
      simp only [multQ] at h1 ⊢
      by_cases hf : fid = s.nextf
      · subst hf
        rw [h0] at h2
        simp at h2
        simp [isDequeueOf, isSubmitOf, List.countP_append, List.countP_cons]
        omega
      · have hne : s.nextf ≠ fid := fun hh => hf hh.symm
        simp [isDequeueOf, isSubmitOf, hne, List.countP_append, List.countP_cons]
        omega
    · intro fid
      rw [cObs_snoc, cSub_snoc]
      have h0 := hinv.fresh s.nextf (Nat.le_refl _)
      have h1 := hinv.obs_eq fid
      have h2 := hinv.sub_eq fid
      simp only [multW] at h1 ⊢
      by_cases hf : fid = s.nextf
      · subst hf
        rw [h0] at h2
        simp at h2
        simp [isObserveOf, isSubmitOf, List.countP_cons]
        omega
      · have hne : s.nextf ≠ fid := fun hh => hf hh.symm
        simp [isObserveOf, isSubmitOf, hne, List.countP_cons]
        omega
    · intro fid
      rw [cComp_snoc, cDeq_snoc]
      have h1 := hinv.comp_eq fid
      simp only [multE] at h1 ⊢
      simp [isCompleteOf, isDequeueOf]
      omega
    · intro fid hle
      have hle2 : s.nextf + 1 ≤ fid := hle
      have hf : fid ≠ s.nextf := by omega
      show upd s.futures s.nextf (some .pending) fid = none
      rw [upd_other _ _ _ _ hf]
      exact hinv.fresh fid (by omega)
    · intro fid hpos
      rw [cComp_snoc] at hpos
      simp [isCompleteOf] at hpos
      have h0 := hinv.fresh s.nextf (Nat.le_refl _)
      have h1 := hinv.sub_eq fid
      have h2 := hinv.deq_eq fid
      have h3 := hinv.comp_eq fid
      by_cases hf : fid = s.nextf
      · subst hf
        rw [h0] at h1
        simp at h1
        omega
      · obtain ⟨o, ho⟩ := hinv.comp_done fid hpos
        refine ⟨o, ?_⟩
        show upd s.futures s.nextf (some .pending) fid = _
        rw [upd_other _ _ _ _ hf]
        exact ho
    · exact hinv.w_nodup
    · exact hinv.w_lt
  | reject t hq =>
    constructor
    · intro fid
      rw [cSub_snoc]
      simpa [isSubmitOf] using hinv.sub_eq fid
    · intro fid
      rw [cDeq_snoc, cSub_snoc]
      simpa [isDequeueOf, isSubmitOf] using hinv.deq_eq fid
    · intro fid
      rw [cObs_snoc, cSub_snoc]
      simpa [isObserveOf, isSubmitOf] using hinv.obs_eq fid
    · intro fid
      rw [cComp_snoc, cDeq_snoc]
      simpa [isCompleteOf, isDequeueOf] using hinv.comp_eq fid
    · exact hinv.fresh
    · intro fid hpos
      rw [cComp_snoc] at hpos
      simp [isCompleteOf] at hpos
      exact hinv.comp_done fid hpos
    · exact hinv.w_nodup
    · exact hinv.w_lt
  | dequeue w fid0 t rest hw hfree hq0 =>
    constructor
    · intro fid
      rw [cSub_snoc]
      simpa [isSubmitOf] using hinv.sub_eq fid
    · intro fid
      rw [cDeq_snoc, cSub_snoc]
      have h1 := hinv.deq_eq fid
      simp only [multQ, hq0, List.countP_cons] at h1
      simp only [multQ]
      by_cases hf : fid0 = fid
      · have hb : (fid0 == fid) = true := by simp [hf]
        simp [hb] at h1
        simp [isDequeueOf, isSubmitOf, hb]
        omega
      · have hb : (fid0 == fid) = false := by simp [hf]
        simp [hb] at h1
        simp [isDequeueOf, isSubmitOf, hb]
        omega
    · intro fid
      rw [cObs_snoc, cSub_snoc]
      have h1 := hinv.obs_eq fid
      simp only [multW] at h1 ⊢
      simp [isObserveOf, isSubmitOf]
      omega
    · intro fid
      rw [cComp_snoc, cDeq_snoc]
      have h1 := hinv.comp_eq fid
      simp only [multE] at h1 ⊢
      by_cases hf : fid0 = fid
      · have hb : (fid0 == fid) = true := by simp [hf]
        simp [isCompleteOf, isDequeueOf, List.countP_cons, hb]
        omega
      · have hb : (fid0 == fid) = false := by simp [hf]
        simp [isCompleteOf, isDequeueOf, List.countP_cons, hb]
        omega
    · exact hinv.fresh
    · intro fid hpos
      rw [cComp_snoc] at hpos
      simp [isCompleteOf] at hpos
      exact hinv.comp_done fid hpos
    · show ((((w, fid0, t) :: s.executing)).map (fun x => x.1)).Nodup
      rw [List.map_cons, List.nodup_cons]
      refine ⟨?_, hinv.w_nodup⟩
      intro hcon
      obtain ⟨x, hx, hxw⟩ := List.mem_map.mp hcon
      exact hfree x hx hxw
    · intro x hx
      rcases List.mem_cons.mp hx with hx1 | hx2
      · subst hx1
        exact hw
      · exact hinv.w_lt x hx2
  | complete w fid0 t sl hex hsl =>
    constructor
    · intro fid
      rw [cSub_snoc]
      have h1 := hinv.sub_eq fid
      by_cases hf : fid = fid0
      · have hsl2 : s.futures fid = some sl := by rw [hf]; exact hsl
        have hupd : upd s.futures fid0 (some (resolveSlot sl t.run)) fid
            = some (resolveSlot sl t.run) := by rw [hf, upd_same]
        rw [hsl2] at h1
        simp at h1
        simp [isSubmitOf, hupd, h1]
      · have hupd := upd_other s.futures fid0 (some (resolveSlot sl t.run)) fid hf
        simp [isSubmitOf, hupd, h1]
    · intro fid
      rw [cDeq_snoc, cSub_snoc]
      have h1 := hinv.deq_eq fid
      simp only [multQ] at h1 ⊢
      simp [isDequeueOf, isSubmitOf]
      omega
    · intro fid
      rw [cObs_snoc, cSub_snoc]
      have h1 := hinv.obs_eq fid
      simp only [multW] at h1 ⊢
      simp [isObserveOf, isSubmitOf]
      omega
    · intro fid
      rw [cComp_snoc, cDeq_snoc]
      have h1 := hinv.comp_eq fid
      have herase := countP_erase_add s.executing (w, fid0, t) (fun x => x.2.1 == fid) hex
      simp only [multE] at h1 ⊢
      by_cases hf : fid0 = fid
      · have hb : (fid0 == fid) = true := by simp [hf]
        simp [hb] at herase
        simp [isCompleteOf, isDequeueOf, hb]
        omega
      · have hb : (fid0 == fid) = false := by simp [hf]
        simp [hb] at herase
        simp [isCompleteOf, isDequeueOf, hb]
        omega
    · intro fid hle
      have hle2 : s.nextf ≤ fid := hle
      by_cases hf : fid = fid0
      · exfalso
        have hn := hinv.fresh fid hle2
        rw [hf] at hn
        rw [hn] at hsl
        cases hsl
      · show upd s.futures fid0 (some (resolveSlot sl t.run)) fid = none
        rw [upd_other _ _ _ _ hf]
        exact hinv.fresh fid hle2
    · intro fid hpos
      rw [cComp_snoc] at hpos
      by_cases hf : fid = fid0
      · obtain ⟨o, ho⟩ := resolveSlot_done sl t.run
        refine ⟨o, ?_⟩
        show upd s.futures fid0 (some (resolveSlot sl t.run)) fid = _
        rw [hf, upd_same, ho]
      · have hb : (fid0 == fid) = false := by
          simp only [beq_eq_false_iff_ne]
          exact fun hh => hf hh.symm
        simp [isCompleteOf, hb] at hpos
        obtain ⟨o, ho⟩ := hinv.comp_done fid hpos
        refine ⟨o, ?_⟩
        show upd s.futures fid0 (some (resolveSlot sl t.run)) fid = _
        rw [upd_other _ _ _ _ hf]
        exact ho
    · exact ((List.erase_sublist _ _).map _).nodup hinv.w_nodup
    · intro x hx
      exact hinv.w_lt x (List.mem_of_mem_erase hx)
  | cancel id fid0 hr hp =>
    constructor
    · intro fid
      rw [cSub_snoc]
      have h1 := hinv.sub_eq fid
      by_cases hf : fid = fid0
      · have hp2 : s.futures fid = some .pending := by rw [hf]; exact hp
        have hupd : upd s.futures fid0 (some (.done .cancelled)) fid
            = some (.done .cancelled) := by rw [hf, upd_same]
        rw [hp2] at h1
        simp at h1
        simp [isSubmitOf, hupd, h1]
      · have hupd := upd_other s.futures fid0 (some (.done .cancelled)) fid hf
        simp [isSubmitOf, hupd, h1]
    · intro fid
      rw [cDeq_snoc, cSub_snoc]
      have h1 := hinv.deq_eq fid
      simp only [multQ] at h1 ⊢
      simp [isDequeueOf, isSubmitOf]
      omega
    · intro fid
      rw [cObs_snoc, cSub_snoc]
      have h1 := hinv.obs_eq fid
      simp only [multW] at h1 ⊢
      simp [isObserveOf, isSubmitOf]
      omega
    · intro fid
      rw [cComp_snoc, cDeq_snoc]
      have h1 := hinv.comp_eq fid
      simp only [multE] at h1 ⊢
      simp [isCompleteOf, isDequeueOf]
      omega
    · intro fid hle
      have hle2 : s.nextf ≤ fid := hle
      by_cases hf : fid = fid0
      · exfalso
        have hn := hinv.fresh fid hle2
        rw [hf] at hn
        rw [hn] at hp
        cases hp
      · show upd s.futures fid0 (some (.done .cancelled)) fid = none
        rw [upd_other _ _ _ _ hf]
        exact hinv.fresh fid hle2
    · intro fid hpos
      rw [cComp_snoc] at hpos
      simp [isCompleteOf] at hpos
      by_cases hf : fid = fid0
      · refine ⟨.cancelled, ?_⟩
        show upd s.futures fid0 (some (.done .cancelled)) fid = _
        rw [hf, upd_same]
      · obtain ⟨o, ho⟩ := hinv.comp_done fid hpos
        refine ⟨o, ?_⟩
        show upd s.futures fid0 (some (.done .cancelled)) fid = _
        rw [upd_other _ _ _ _ hf]
        exact ho
    · exact hinv.w_nodup
    · exact hinv.w_lt
  | observe id fid0 o hwm hd =>
    constructor
    · intro fid
      rw [cSub_snoc]
      simpa [isSubmitOf] using hinv.sub_eq fid
    · intro fid
      rw [cDeq_snoc, cSub_snoc]
      have h1 := hinv.deq_eq fid
      simp only [multQ] at h1 ⊢
      simp [isDequeueOf, isSubmitOf]
      omega
    · intro fid
      rw [cObs_snoc, cSub_snoc]
      have h1 := hinv.obs_eq fid
      have herase := countP_erase_add s.waiting (id, fid0) (fun p => p.2 == fid) hwm
      simp only [multW] at h1 ⊢
      by_cases hf : fid0 = fid
      · have hb : (fid0 == fid) = true := by simp [hf]
        simp [hb] at herase
        simp [isObserveOf, isSubmitOf, hb]
        omega
      · have hb : (fid0 == fid) = false := by simp [hf]
        simp [hb] at herase
        simp [isObserveOf, isSubmitOf, hb]
        omega
    · intro fid
      rw [cComp_snoc, cDeq_snoc]
      have h1 := hinv.comp_eq fid
      simp only [multE] at h1 ⊢
      simp [isCompleteOf, isDequeueOf]
      omega
    · exact hinv.fresh
    · intro fid hpos
      rw [cComp_snoc] at hpos
      simp [isCompleteOf] at hpos
      exact hinv.comp_done fid hpos
    · exact hinv.w_nodup
    · exact hinv.w_lt

theorem qinv_init (mw mq : Nat) : QInv [] (initQState mw mq) := by
  refine ⟨?_, ?_, ?_, ?_, ?_, ?_, ?_, ?_⟩ <;>
    simp [cSub, cDeq, cComp, cObs, multQ, multE, multW, initQState]

theorem qinv_trace_aux {s : QState} {es : List Ev} {s2 : QState} (h : Trace s es s2) :
    ∀ es0, QInv es0 s → QInv (es0 ++ es) s2 := by
  induction h with
  | nil s =>
    intro es0 h0
    simpa using h0
  | cons hst htr ih =>
    intro es0 h0
    have h1 := ih _ (qinv_step h0 hst)
    rw [List.append_assoc] at h1
    simpa using h1

theorem qinv_of_trace {mw mq : Nat} {es : List Ev} {s2 : QState}
    (h : Trace (initQState mw mq) es s2) : QInv es s2 := by
  have h1 := qinv_trace_aux h [] (qinv_init mw mq)
  simpa using h1

theorem step_max_workers {s : QState} {e : Ev} {s2 : QState} (h : Step s e s2) :
    s2.max_workers = s.max_workers := by
  cases h <;> rfl

theorem trace_max_workers {s : QState} {es : List Ev} {s2 : QState} (h : Trace s es s2) :
    s2.max_workers = s.max_workers := by
  induction h with
  | nil s => rfl
  | cons hst htr ih => rw [ih, step_max_workers hst]

theorem worker_free_after_erase (l : List (Nat × Nat × QTask)) (w g : Nat) (t : QTask)
    (hmem : (w, g, t) ∈ l) (hnd : (l.map (fun x => x.1)).Nodup) :
    ∀ y ∈ l.erase (w, g, t), y.1 ≠ w := by
  obtain ⟨l1, l2, -, hl, he⟩ := List.exists_erase_eq hmem
  rw [he]
  rw [hl, List.map_append, List.map_cons] at hnd
  obtain ⟨h1, h2, hdisj⟩ := List.nodup_append.mp hnd
  rw [List.nodup_cons] at h2
  intro y hy hcon
  rcases List.mem_append.mp hy with hy1 | hy2
  · have hm : y.1 ∈ List.map (fun x => x.1) l1 :=
      List.mem_map_of_mem (fun x => x.1) hy1
    rw [hcon] at hm
    exact hdisj hm (List.mem_cons_self _ _)
  · have hm : y.1 ∈ List.map (fun x => x.1) l2 :=
      List.mem_map_of_mem (fun x => x.1) hy2
    rw [hcon] at hm
    exact h2.1 hm

/-- Liveness on the running system: a caller suspended on a pending or
resolved future can always be driven, by scheduling workers, to observe the
terminal outcome of its task exactly once. -/
theorem queue_liveness (N : Nat) :
    ∀ (s : QState) (es : List Ev), s.task_queue.length = N → QInv es s →
    0 < s.max_workers → ∀ id fid, (id, fid) ∈ s.waiting →
    ∃ es2 s2, Trace s es2 s2 ∧ cObs fid es2 = 1 := by
  induction N using Nat.strong_induction_on with
  | _ N IH =>
    intro s es hN hinv hw id fid hwait
    cases hfut : s.futures fid with
    | none =>
      exfalso
      have hmw : 0 < multW fid s := by
        rw [multW]
        exact List.countP_pos.mpr ⟨(id, fid), hwait, by simp⟩
      have h1 := hinv.obs_eq fid
      have h2 := hinv.sub_eq fid
      rw [hfut] at h2
      simp at h2
      omega
    | some sl =>
      cases sl with
      | done o =>
        refine ⟨[.observe id fid o], _,
          Trace.cons (Step.observe s id fid o hwait hfut) (Trace.nil _), ?_⟩
        simp [cObs, List.countP_cons, isObserveOf]
      | pending =>
        have hcz : cComp fid es = 0 := by
          by_contra hc
          obtain ⟨o, ho⟩ := hinv.comp_done fid (Nat.pos_of_ne_zero hc)
          rw [hfut] at ho
          cases ho
        have hocc : 0 < multQ fid s + multE fid s := by
          have h1 := hinv.sub_eq fid
          rw [hfut] at h1
          simp at h1
          have h2 := hinv.deq_eq fid
          have h3 := hinv.comp_eq fid
          omega
        by_cases hexe : 0 < multE fid s
        · rw [multE] at hexe
          obtain ⟨x, hxmem, hxok⟩ := List.countP_pos.mp hexe
          obtain ⟨w2, g2, t2⟩ := x
          have hg2 : g2 = fid := by simpa using hxok
          subst hg2
          obtain ⟨o, ho⟩ := resolveSlot_done .pending t2.run
          refine ⟨[.complete w2 g2 t2, .observe id g2 o], _,
            Trace.cons (Step.complete s w2 g2 t2 .pending hxmem hfut)
              (Trace.cons (Step.observe _ id g2 o hwait ?_) (Trace.nil _)), ?_⟩
          · show upd s.futures g2 (some (resolveSlot .pending t2.run)) g2
              = some (.done o)
            rw [upd_same, ho]
          · simp [cObs, List.countP_cons, isObserveOf, isCompleteOf]
        · have hq : 0 < multQ fid s := by omega
          cases hqs : s.task_queue with
          | nil =>
            rw [multQ, hqs] at hq
            simp at hq
          | cons hd rest =>
            obtain ⟨g0, t0⟩ := hd
            have hlt : rest.length < N := by
              rw [← hN, hqs]
              simp
            by_cases hbusy : ∃ x ∈ s.executing, x.1 = 0
            · obtain ⟨x, hxmem, hx0⟩ := hbusy
              obtain ⟨w2, g2, t2⟩ := x
              have hw2 : w2 = 0 := hx0
              subst hw2
              have hg2 : ∃ sl2, s.futures g2 = some sl2 := by
                cases hfg : s.futures g2 with
                | some sl2 => exact ⟨sl2, rfl⟩
                | none =>
                  exfalso
                  have h3 := hinv.sub_eq g2
                  rw [hfg] at h3
                  simp at h3
                  have h2 := hinv.deq_eq g2
                  have h4 := hinv.comp_eq g2
                  have hme : 0 < multE g2 s := by
                    rw [multE]
                    exact List.countP_pos.mpr ⟨(0, g2, t2), hxmem, by simp⟩
                  omega
              obtain ⟨sl2, hsl2⟩ := hg2
              have hstep1 := Step.complete s 0 g2 t2 sl2 hxmem hsl2
              have hfree1 := worker_free_after_erase s.executing 0 g2 t2 hxmem hinv.w_nodup
              have hstep2 := Step.dequeue
                { s with
                  executing := s.executing.erase (0, g2, t2)
                  futures := upd s.futures g2 (some (resolveSlot sl2 t2.run)) }
                0 g0 t0 rest hw hfree1 hqs
              have hinv1 := qinv_step hinv hstep1
              have hinv2 := qinv_step hinv1 hstep2
              obtain ⟨es3, s3, htr3, hobs3⟩ :=
                IH rest.length hlt _ _ rfl hinv2 hw id fid hwait
              refine ⟨.complete 0 g2 t2 :: .dequeue 0 g0 t0 :: es3, s3,
                Trace.cons hstep1 (Trace.cons hstep2 htr3), ?_⟩
              simpa [cObs, List.countP_cons, isObserveOf] using hobs3
            · push_neg at hbusy
              have hstep2 := Step.dequeue s 0 g0 t0 rest hw hbusy hqs
              have hinv2 := qinv_step hinv hstep2
              obtain ⟨es3, s3, htr3, hobs3⟩ :=
                IH rest.length hlt _ _ rfl hinv2 hw id fid hwait
              refine ⟨.dequeue 0 g0 t0 :: es3, s3, Trace.cons hstep2 htr3, ?_⟩
              simpa [cObs, List.countP_cons, isObserveOf] using hobs3

/-- C1: in every run of a started queue, each admitted task is pulled by at
most one worker and its caller observes at most one terminal outcome; and
any admitted task not yet observed can always be driven (by running the
workers) to be observed exactly once — never zero, never more than one. -/
theorem task_outcome_exactly_once
    (mw mq : Nat) (es : List Ev) (s : QState)
    (htr : Trace (initQState mw mq) es s)
    (hwk : 0 < mw) :
    (∀ fid, cDeq fid es ≤ 1) ∧
    (∀ fid, cObs fid es ≤ 1) ∧
    (∀ t fid, Ev.submit t fid ∈ es → cObs fid es = 0 →
      ∃ es2 s2, Trace s es2 s2 ∧ cObs fid es2 = 1) := by
  have hinv := qinv_of_trace htr
  refine ⟨?_, ?_, ?_⟩
  · intro fid
    have h1 := hinv.sub_eq fid
    have h2 := hinv.deq_eq fid
    have h3 : cSub fid es ≤ 1 := by
      rw [h1]
      split <;> omega
    omega
  · intro fid
    have h1 := hinv.sub_eq fid
    have h2 := hinv.obs_eq fid
    have h3 : cSub fid es ≤ 1 := by
      rw [h1]
      split <;> omega
    omega
  · intro t fid hmem hz
    have hpos : 0 < cSub fid es := by
      rw [cSub]
      exact List.countP_pos.mpr ⟨_, hmem, by simp [isSubmitOf]⟩
    have h2 := hinv.obs_eq fid
    have hmw : 0 < multW fid s := by omega
    rw [multW] at hmw
    obtain ⟨p, hpmem, hpok⟩ := List.countP_pos.mp hmw
    obtain ⟨id2, g⟩ := p
    have hg : g = fid := by simpa using hpok
    subst hg
    have hmax : s.max_workers = mw := trace_max_workers htr
    exact queue_liveness s.task_queue.length s es rfl hinv
      (by rw [hmax]; exact hwk) id2 g hpmem

/-- C1 witness: one task submitted on a one-worker queue; it can be driven
to exactly one observed outcome. -/
theorem task_outcome_exactly_once_witness :
    (∀ fid, cDeq fid [Ev.submit ⟨1, .returns 5⟩ 0] ≤ 1) ∧
    (∀ fid, cObs fid [Ev.submit ⟨1, .returns 5⟩ 0] ≤ 1) ∧
    (∀ t fid, Ev.submit t fid ∈ [Ev.submit ⟨1, .returns 5⟩ 0] →
      cObs fid [Ev.submit ⟨1, .returns 5⟩ 0] = 0 →
      ∃ es2 s2, Trace (QState.mk 1 1 1 (upd (fun _ => none) 0 (some .pending))
          (upd (fun _ => none) 1 (some 0)) [(0, ⟨1, .returns 5⟩)] [] [(1, 0)])
        es2 s2 ∧ cObs fid es2 = 1) :=
  task_outcome_exactly_once 1 1 [Ev.submit ⟨1, .returns 5⟩ 0]
    (QState.mk 1 1 1 (upd (fun _ => none) 0 (some .pending))
      (upd (fun _ => none) 1 (some 0)) [(0, ⟨1, .returns 5⟩)] [] [(1, 0)])
    (Trace.cons (Step.submit (initQState 1 1) ⟨1, .returns 5⟩ (by decide))
      (Trace.nil _))
    (by decide)

/-- The first submitted task of the C2 scenario. -/
def t1C2 : QTask := ⟨1, .returns 5⟩

/-- The second submitted task of the C2 scenario. -/
def t2C2 : QTask := ⟨2, .returns 6⟩

/-- Queue of capacity 1 whose single admitted task is in flight on worker 0
(pulled off the queue, not yet finished, its caller still waiting). -/
def sC2 : QState :=
  ⟨1, 1, 1, upd (fun _ => none) 0 (some .pending), upd (fun _ => none) 1 (some 0),
   [], [(0, 0, t1C2)], [(1, 0)]⟩

/-- The state after the second submission is admitted. -/
def sC2b : QState :=
  ⟨1, 1, 2, upd (upd (fun _ => none) 0 (some .pending)) 1 (some .pending),
   upd (upd (fun _ => none) 1 (some 0)) 2 (some 1),
   [(1, t2C2)], [(0, 0, t1C2)], [(2, 1), (1, 0)]⟩

/-- C2 counterexample: with capacity N = 1 and one task admitted and not
yet drained (it is in flight on a worker, outcome pending, unobserved), the
second `submit` is admitted, not rejected: the capacity check reads only
`qsize()`, which in-flight tasks no longer count toward. -/
theorem capacity_check_counterexample :
    Trace (initQState 1 1) [Ev.submit t1C2 0, Ev.dequeue 0 0 t1C2] sC2 ∧
    sC2.max_queue_size = 1 ∧
    cSub 0 [Ev.submit t1C2 0, Ev.dequeue 0 0 t1C2] = 1 ∧
    multE 0 sC2 = 1 ∧
    sC2.futures 0 = some .pending ∧
    cObs 0 [Ev.submit t1C2 0, Ev.dequeue 0 0 t1C2] = 0 ∧
    Step sC2 (Ev.submit t2C2 1) sC2b ∧
    ¬ Step sC2 (Ev.reject t2C2) sC2 := by
  refine ⟨?_, rfl, by decide, by decide, by decide, by decide, ?_, ?_⟩
  · exact Trace.cons (Step.submit (initQState 1 1) t1C2 (by decide))
      (Trace.cons (Step.dequeue _ 0 0 t1C2 [] (by decide)
        (by intro x hx; simp [initQState] at hx) rfl) (Trace.nil _))
  · exact Step.submit sC2 t2C2 (by decide)
  · intro hstep
    cases hstep
    rename_i hq
    exact absurd hq (by decide)

/-- C2 (amended): `add_task` rejects a submission exactly when the number
of tasks still sitting in the queue — not counting tasks already pulled by
a worker and in flight — has reached `max_queue_size`; below that it
admits. -/
theorem submit_capacity_counts_only_queued (s : QState) (t : QTask) :
    (s.max_queue_size ≤ s.task_queue.length →
      Step s (.reject t) s ∧ ∀ fid s2, ¬ Step s (.submit t fid) s2) ∧
    (s.task_queue.length < s.max_queue_size →
      (∃ s2, Step s (.submit t s.nextf) s2) ∧ ∀ s2, ¬ Step s (.reject t) s2) := by
  constructor
  · intro hfull
    refine ⟨Step.reject s t hfull, ?_⟩
    intro fid s2 hstep
    cases hstep
    rename_i hq
    omega
  · intro hroom
    refine ⟨⟨_, Step.submit s t hroom⟩, ?_⟩
    intro s2 hstep
    cases hstep
    rename_i hq
    omega

/-- C2 witness: at the in-flight state of the counterexample, the queue is
empty, so the next submission is admitted. -/
theorem submit_capacity_counts_only_queued_witness :
    (sC2.max_queue_size ≤ sC2.task_queue.length →
      Step sC2 (.reject t2C2) sC2 ∧ ∀ fid s2, ¬ Step sC2 (.submit t2C2 fid) s2) ∧
    (sC2.task_queue.length < sC2.max_queue_size →
      (∃ s2, Step sC2 (.submit t2C2 sC2.nextf) s2) ∧
      ∀ s2, ¬ Step sC2 (.reject t2C2) s2) :=
  submit_capacity_counts_only_queued sC2 t2C2

/-- C7: when an admitted task's operation raises, the exception is captured
as the task's terminal error outcome (the future resolves to that error
unless already done), the waiting caller can observe exactly that error
(the re-raise in `add_task`), and the worker survives: it is free
immediately after and can pull the next queued task. -/
theorem task_error_captured_and_worker_survives
    (s : QState) (w fid : Nat) (t : QTask) (e : Nat)
    (hex : (w, fid, t) ∈ s.executing)
    (hrun : t.run = .raises e)
    (hsl : s.futures fid = some .pending)
    (hnd : (s.executing.map (fun x => x.1)).Nodup) :
    ∃ s2, Step s (.complete w fid t) s2 ∧
      s2.futures fid = some (.done (.error e)) ∧
      (∀ y ∈ s2.executing, y.1 ≠ w) ∧
      (∀ fid2 t2 rest, s2.task_queue = (fid2, t2) :: rest → w < s2.max_workers →
        ∃ s3, Step s2 (.dequeue w fid2 t2) s3) ∧
      (∀ id, (id, fid) ∈ s.waiting → ∃ s3, Step s2 (.observe id fid (.error e)) s3) := by
  refine ⟨_, Step.complete s w fid t .pending hex hsl, ?_, ?_, ?_, ?_⟩
  · show upd s.futures fid (some (resolveSlot .pending t.run)) fid = _
    rw [upd_same, hrun]
    rfl
  · exact worker_free_after_erase s.executing w fid t hex hnd
  · intro fid2 t2 rest hq hwlt
    exact ⟨_, Step.dequeue _ w fid2 t2 rest hwlt
      (worker_free_after_erase s.executing w fid t hex hnd) hq⟩
  · intro id hwmem
    refine ⟨_, Step.observe _ id fid (.error e) hwmem ?_⟩
    show upd s.futures fid (some (resolveSlot .pending t.run)) fid = _
    rw [upd_same, hrun]
    rfl

/-- C7 witness: a task that raises error 3 on worker 0. -/
theorem task_error_captured_and_worker_survives_witness :
    ∃ s2, Step (QState.mk 1 1 1 (upd (fun _ => none) 0 (some .pending))
        (upd (fun _ => none) 1 (some 0)) [] [(0, 0, ⟨1, .raises 3⟩)] [(1, 0)])
      (.complete 0 0 ⟨1, .raises 3⟩) s2 ∧
      s2.futures 0 = some (.done (.error 3)) ∧
      (∀ y ∈ s2.executing, y.1 ≠ 0) ∧
      (∀ fid2 t2 rest, s2.task_queue = (fid2, t2) :: rest → 0 < s2.max_workers →
        ∃ s3, Step s2 (.dequeue 0 fid2 t2) s3) ∧
      (∀ id, (id, (0 : Nat)) ∈ (QState.mk 1 1 1 (upd (fun _ => none) 0 (some .pending))
          (upd (fun _ => none) 1 (some 0)) [] [(0, 0, ⟨1, .raises 3⟩)]
          [(1, 0)]).waiting →
        ∃ s3, Step s2 (.observe id 0 (.error 3)) s3) :=
  task_error_captured_and_worker_survives
    (QState.mk 1 1 1 (upd (fun _ => none) 0 (some .pending))
      (upd (fun _ => none) 1 (some 0)) [] [(0, 0, ⟨1, .raises 3⟩)] [(1, 0)])
    0 0 ⟨1, .raises 3⟩ 3 (by decide) rfl (by decide) (by decide)
